import Mathlib

/-!
Shallow embedding of the hybrid retrieval core of `src/advanced-agentic-rag.js`:
the vectorizer, cosine-similarity index, keyword scorer and fusion ranker.

JavaScript numbers are modelled as exact rationals (term-vector weights,
keyword scores) and real numbers (similarities and combined scores, which the
source obtains through `Math.sqrt` and float division).  JavaScript strings are
Lean `String`s; the character-level work happens on `List Char`.

One modelling caveat, documented where it matters: the word-match loop of
`keywordSearch` builds `new RegExp(word, "g")` from the raw query word.  For a
word containing only ordinary characters (letters, digits, spaces — no regex
metacharacters) that pattern matches exactly the literal word, and `countOccur`
below reproduces the count of non-overlapping matches.  Words containing regex
metacharacters make the source either throw (invalid patterns such as "c++")
or count non-literal matches ("a.c"); that behaviour is outside this model and
is recorded in the analysis of the affected claims.
-/

/-- Case-folding used throughout the source (`toLowerCase()`), as a character
list so that all later scanning is plain list recursion. -/
def toLowerCase (s : String) : List Char :=
  s.data.map Char.toLower

/-- A character matched by the JavaScript `\w` class: ASCII letters, digits
and underscore. -/
def isWordChar (c : Char) : Bool :=
  c.isAlphanum || c = '_'

/-- Accumulator-based splitting of a character list into the maximal runs of
characters satisfying `p` (the runs appear in order; separators are dropped).
`cur` holds the current run, reversed. -/
def runsPAux (p : Char → Bool) (cur : List Char) : List Char → List (List Char)
  | [] => if cur.isEmpty then [] else [cur.reverse]
  | c :: cs =>
    if p c then runsPAux p (c :: cur) cs
    else if cur.isEmpty then runsPAux p [] cs else cur.reverse :: runsPAux p [] cs

/-- Maximal runs of characters satisfying `p`. -/
def runsP (p : Char → Bool) (l : List Char) : List (List Char) :=
  runsPAux p [] l

/-- Tokens of a text, as in `text.toLowerCase().match(/\b\w+\b/g) || []`:
maximal runs of word characters of the case-folded text. -/
def tokenize (text : String) : List (List Char) :=
  runsP isWordChar (toLowerCase text)

/-- Keep the first occurrence of every element, dropping later duplicates
(the key order of a JavaScript object or `Set` built by repeated insertion);
`seen` holds the elements already emitted. -/
def dedupFirstAux (seen : List (List Char)) : List (List Char) → List (List Char)
  | [] => []
  | w :: ws => if w ∈ seen then dedupFirstAux seen ws else w :: dedupFirstAux (w :: seen) ws

/-- Keep the first occurrence of every element, dropping later duplicates. -/
def dedupFirst (l : List (List Char)) : List (List Char) :=
  dedupFirstAux [] l

/-- A sparse term vector: the JavaScript object mapping token → weight. -/
abbrev TermVec := List (List Char × ℚ)

/-- Model of `VectorStore.vectorize`: tokenize, count the tokens of length > 2, and
weight each by its frequency divided by the total token count (short tokens
included in the denominator).  A token-free text yields the empty vector. -/
def vectorize (text : String) : TermVec :=
  let words := tokenize text
  let totalWords := words.length
  let longWords := words.filter (fun w => 2 < w.length)
  (dedupFirst longWords).map (fun w => (w, (longWords.count w : ℚ) / (totalWords : ℚ)))

/-- The key list of a term vector (`Object.keys`). -/
def keysOf (v : TermVec) : List (List Char) :=
  v.map Prod.fst

/-- Object indexing `vec[word]` (0 outside the key set; vectors built by
`vectorize` have distinct keys, so the first match is the entry). -/
def getVal (v : TermVec) (w : List Char) : ℚ :=
  match v.find? (fun pr => pr.1 = w) with
  | some pr => pr.2
  | none => 0

/-- Model of `commonWords = new Set([...words1].filter(x => words2.has(x)))`: the keys
of `vec1` (deduplicated, as a `Set`) that also occur among the keys of
`vec2`. -/
def commonWords (vec1 vec2 : TermVec) : List (List Char) :=
  (dedupFirst (keysOf vec1)).filter (fun w => w ∈ keysOf vec2)

/-- Model of `VectorStore.cosineSimilarity`: 0 when no key is shared, otherwise the dot
product over the common keys divided by the product of the two norms (each
norm over all keys of its own vector). -/
noncomputable def cosineSimilarity (vec1 vec2 : TermVec) : ℝ :=
  if commonWords vec1 vec2 = [] then 0
  else
    let dotProduct : ℚ := ((commonWords vec1 vec2).map (fun w => getVal vec1 w * getVal vec2 w)).sum
    let norm1 : ℚ := ((dedupFirst (keysOf vec1)).map (fun w => getVal vec1 w * getVal vec1 w)).sum
    let norm2 : ℚ := ((dedupFirst (keysOf vec2)).map (fun w => getVal vec2 w * getVal vec2 w)).sum
    (dotProduct : ℝ) / (Real.sqrt (norm1 : ℝ) * Real.sqrt (norm2 : ℝ))

/-- First-match association lookup (`Map.get` / `Map.has`). -/
def lookupA {κ α : Type} [DecidableEq κ] (m : List (κ × α)) (k : κ) : Option α :=
  match m.find? (fun p => p.1 = k) with
  | some p => some p.2
  | none => none

/-- Model of `Map.set`: replace the value at an existing key in place, otherwise append
the new binding at the end (JavaScript `Map` preserves insertion order). -/
def mapSet {κ α : Type} [DecidableEq κ] (m : List (κ × α)) (k : κ) (v : α) : List (κ × α) :=
  if m.any (fun p => p.1 = k) then
    m.map (fun p => if p.1 = k then (k, v) else p)
  else
    m ++ [(k, v)]

/-- One step of a stable descending insertion: `x` is placed before the first
element of strictly smaller key, hence after every earlier element of equal
key. -/
def insertByDesc {α β : Type} [LinearOrder β] (key : α → β) (x : α) : List α → List α
  | [] => [x]
  | y :: ys => if key y < key x then x :: y :: ys else y :: insertByDesc key x ys

/-- Left fold of stable descending insertion. -/
def sortByDescAux {α β : Type} [LinearOrder β] (key : α → β) : List α → List α → List α
  | acc, [] => acc
  | acc, x :: xs => sortByDescAux key (insertByDesc key x acc) xs

/-- The observable behaviour of `Array.prototype.sort((a, b) => b.key - a.key)`
(a stable sort, descending by `key`), modelled as stable insertion sort. -/
def sortByDesc {α β : Type} [LinearOrder β] (key : α → β) (l : List α) : List α :=
  sortByDescAux key [] l

/-- Model of `VectorStore.vectorSearch`: vectorize the query once, score every
candidate id that has an entry in the embeddings table (ids without an entry
are skipped), sort descending by similarity, truncate to `topK`. -/
noncomputable def vectorSearch (embeddings : List (String × TermVec)) (query : String)
    (docIds : List String) (topK : Nat) : List (String × ℝ) :=
  let queryVector := vectorize query
  let similarities := docIds.filterMap (fun docId =>
    match lookupA embeddings docId with
    | some docVector => some (docId, cosineSimilarity queryVector docVector)
    | none => none)
  (sortByDesc Prod.snd similarities).take topK

/-- The document fields the retrieval core reads (`id`, `title`, `content`,
`tags`; `category`, `metadata` and `timestamp` are never consulted by the
scorers). -/
structure Doc where
  id : String
  title : String
  content : String
  tags : List String
deriving DecidableEq

/-- Test that `pat` occurs at the head of the text (`List.take pat.length text = pat`). -/
def listStartsWith : List Char → List Char → Bool
  | [], _ => true
  | _ :: _, [] => false
  | p :: ps, c :: cs => p = c && listStartsWith ps cs

/-- JavaScript `text.includes(pat)`: `pat` occurs somewhere in `text` (the
empty pattern occurs in every text). -/
def containsSub (pat : List Char) : List Char → Bool
  | [] => pat.isEmpty
  | c :: cs => listStartsWith pat (c :: cs) || containsSub pat cs

/-- Model of `(text.match(new RegExp(word, "g")) || []).length` for a regex-literal
`word`: the number of non-overlapping occurrences of `word` in `text`, found
left to right (the global regex scan).  Guarded against the empty word, which
the source never passes here (only words of length > 2 reach this loop). -/
def countOccurAux (word : List Char) : Nat → List Char → Nat
  | _, [] => 0
  | 0, _ :: _ => 0
  | fuel + 1, c :: cs =>
    if word ≠ [] ∧ listStartsWith word (c :: cs) then
      1 + countOccurAux word fuel ((c :: cs).drop word.length)
    else
      countOccurAux word fuel cs

/-- Non-overlapping occurrence count; the fuel `text.length` is exactly enough
because every step consumes at least one character. -/
def countOccur (word text : List Char) : Nat :=
  countOccurAux word text.length text

/-- Model of `queryLower.split(/\s+/)` restricted to its non-empty components: the
maximal whitespace-free runs (the source filters out everything of length ≤ 2,
so the empty components JavaScript may add are irrelevant). -/
def splitWs (s : List Char) : List (List Char) :=
  runsP (fun c => !c.isWhitespace) s

/-- The per-document score of `AdvancedKnowledgeBase.keywordSearch`:
+5 title substring, +3 content substring, +2 per matching tag, and for every
query word of length > 2, +2 per occurrence in the title and +1 per occurrence
in the content. -/
def keywordScore (query : String) (doc : Doc) : Nat :=
  let queryLower := toLowerCase query
  let titleScore := if containsSub queryLower (toLowerCase doc.title) then 5 else 0
  let contentScore := if containsSub queryLower (toLowerCase doc.content) then 3 else 0
  let tagScore := 2 * (doc.tags.filter (fun tag => containsSub queryLower (toLowerCase tag))).length
  let queryWords := splitWs queryLower
  let wordScore := (queryWords.map (fun word =>
      if 2 < word.length then
        2 * countOccur word (toLowerCase doc.title) + 1 * countOccur word (toLowerCase doc.content)
      else 0)).sum
  titleScore + contentScore + tagScore + wordScore

/-- A keyword result: `{ ...doc, relevanceScore }`. -/
structure ScoredDoc where
  doc : Doc
  relevanceScore : Nat
deriving DecidableEq

/-- Model of `AdvancedKnowledgeBase.keywordSearch`: score every document, keep those
with positive score (in corpus order), sort stably descending by score,
truncate to `maxResults`. -/
def keywordSearch (documents : List Doc) (query : String) (maxResults : Nat) : List ScoredDoc :=
  let results := documents.filterMap (fun doc =>
    let score := keywordScore query doc
    if 0 < score then some ⟨doc, score⟩ else none)
  (sortByDesc ScoredDoc.relevanceScore results).take maxResults

/-- A fused result: `{ ...doc, keywordScore, vectorScore, combinedScore }`. -/
structure FusedDoc where
  doc : Doc
  keywordScore : Nat
  vectorScore : ℝ
  combinedScore : ℝ

/-- The entry written for a keyword result during fusion: vector score 0 and
the raw keyword score as the combined score. -/
noncomputable def kwEntry (sd : ScoredDoc) : FusedDoc :=
  { doc := sd.doc, keywordScore := sd.relevanceScore, vectorScore := 0,
    combinedScore := (sd.relevanceScore : ℝ) }

/-- The vector phase of the fusion loop: look the hit's id up in the live
document list (hits that match no document are dropped); blend
`keywordScore·0.6 + similarity·0.4` when the id is already present, otherwise
insert a vector-only entry scored `similarity·0.4`. -/
noncomputable def fuseVector (documents : List Doc) (m : List (String × FusedDoc))
    (res : String × ℝ) : List (String × FusedDoc) :=
  match documents.find? (fun d => d.id = res.1) with
  | none => m
  | some doc =>
    match lookupA m doc.id with
    | some existing =>
      mapSet m doc.id { existing with
        vectorScore := res.2
        combinedScore := (existing.keywordScore : ℝ) * 0.6 + res.2 * 0.4 }
    | none =>
      mapSet m doc.id { doc := doc
                        keywordScore := 0
                        vectorScore := res.2
                        combinedScore := res.2 * 0.4 }

/-- The fused result map of `hybridRetrieval` before ranking: keyword results
written first (keyed by id), then the vector results folded in. -/
noncomputable def fusedMap (documents : List Doc) (embeddings : List (String × TermVec))
    (query : String) (maxResults : Nat) : List (String × FusedDoc) :=
  let keywordResults := keywordSearch documents query (maxResults * 2)
  let docIds := documents.map Doc.id
  let vectorResults := vectorSearch embeddings query docIds (maxResults * 2)
  let step1 := keywordResults.foldl (fun m sd => mapSet m sd.doc.id (kwEntry sd)) []
  vectorResults.foldl (fuseVector documents) step1

/-- Model of `AdvancedKnowledgeBase.hybridRetrieval`: fuse the keyword and vector
result sets (each asked for `maxResults * 2` hits), sort the fused values
stably descending by combined score, truncate to `maxResults`. -/
noncomputable def hybridRetrieval (documents : List Doc) (embeddings : List (String × TermVec))
    (query : String) (maxResults : Nat) : List FusedDoc :=
  (sortByDesc FusedDoc.combinedScore ((fusedMap documents embeddings query maxResults).map Prod.snd)).take maxResults

/-! ### Helper lemmas: first-occurrence deduplication -/

theorem mem_dedupFirstAux {w : List Char} :
    ∀ {l seen : List (List Char)}, w ∈ dedupFirstAux seen l ↔ w ∈ l ∧ w ∉ seen := by
  intro l
  induction l with
  | nil => intro seen; simp [dedupFirstAux]
  | cons x xs ih =>
    intro seen
    by_cases hx : x ∈ seen
    · rw [dedupFirstAux, if_pos hx, ih]
      constructor
      · rintro ⟨h1, h2⟩
        exact ⟨List.mem_cons_of_mem x h1, h2⟩
      · rintro ⟨h1, h2⟩
        rcases List.mem_cons.mp h1 with rfl | h1'
        · exact absurd hx h2
        · exact ⟨h1', h2⟩
    · rw [dedupFirstAux, if_neg hx]
      constructor
      · intro h
        rcases List.mem_cons.mp h with rfl | h'
        · exact ⟨List.mem_cons_self w xs, hx⟩
        · rcases ih.mp h' with ⟨h1, h2⟩
          refine ⟨List.mem_cons_of_mem x h1, fun hs => h2 (List.mem_cons_of_mem x hs)⟩
      · rintro ⟨h1, h2⟩
        rcases List.mem_cons.mp h1 with rfl | h1'
        · exact List.mem_cons_self w _
        · by_cases hwx : w = x
          · subst hwx; exact List.mem_cons_self w _
          · exact List.mem_cons_of_mem x (ih.mpr ⟨h1', by simp [h2, hwx]⟩)

theorem mem_dedupFirst {w : List Char} {l : List (List Char)} :
    w ∈ dedupFirst l ↔ w ∈ l := by
  rw [dedupFirst, mem_dedupFirstAux]
  simp

theorem dedupFirstAux_eq_self :
    ∀ {l seen : List (List Char)}, l.Nodup → (∀ x ∈ l, x ∉ seen) → dedupFirstAux seen l = l := by
  intro l
  induction l with
  | nil => intro seen _ _; rfl
  | cons x xs ih =>
    intro seen hnd hdisj
    have hx : x ∉ seen := hdisj x (List.mem_cons_self x xs)
    rw [dedupFirstAux, if_neg hx]
    rcases List.nodup_cons.mp hnd with ⟨hxs, hnd'⟩
    congr 1
    refine ih hnd' ?_
    intro y hy
    intro hmem
    rcases List.mem_cons.mp hmem with rfl | hys
    · exact hxs hy
    · exact hdisj y (List.mem_cons_of_mem x hy) hys

theorem dedupFirst_eq_self {l : List (List Char)} (h : l.Nodup) : dedupFirst l = l :=
  dedupFirstAux_eq_self h (by simp)

/-! ### Helper lemmas: object indexing -/

theorem getVal_of_mem {v : TermVec} {p : List Char × ℚ}
    (hnd : (keysOf v).Nodup) (hp : p ∈ v) : getVal v p.1 = p.2 := by
  induction v with
  | nil => cases hp
  | cons q v ih =>
    rcases List.nodup_cons.mp (show (q.1 :: keysOf v).Nodup from hnd) with ⟨hq1, hnd'⟩
    rcases List.mem_cons.mp hp with rfl | hp'
    · rw [getVal, List.find?_cons_of_pos _ (by simp)]
    · have hne : ¬ q.1 = p.1 := by
        intro h
        exact hq1 (h ▸ List.mem_map_of_mem Prod.fst hp')
      rw [getVal, List.find?_cons_of_neg _ (by simp [hne])]
      exact ih hnd' hp'

/-! ### Helper lemmas: association lists (`Map` semantics) -/

theorem lookupA_nil {κ α : Type} [DecidableEq κ] (k : κ) :
    lookupA ([] : List (κ × α)) k = none := rfl

theorem lookupA_cons {κ α : Type} [DecidableEq κ] (p : κ × α) (m : List (κ × α)) (k : κ) :
    lookupA (p :: m) k = if p.1 = k then some p.2 else lookupA m k := by
  by_cases h : p.1 = k
  · rw [if_pos h, lookupA, List.find?_cons_of_pos _ (by simp [h])]
  · rw [if_neg h, lookupA, List.find?_cons_of_neg _ (by simp [h])]
    rfl

theorem lookupA_replace_self {κ α : Type} [DecidableEq κ] (m : List (κ × α)) (k : κ) (v : α)
    (h : m.any (fun p => p.1 = k) = true) :
    lookupA (m.map (fun p => if p.1 = k then (k, v) else p)) k = some v := by
  induction m with
  | nil => simp at h
  | cons q m ih =>
    by_cases hq : q.1 = k
    · rw [List.map_cons, if_pos hq, lookupA_cons, if_pos rfl]
    · rw [List.map_cons, if_neg hq, lookupA_cons, if_neg hq]
      refine ih ?_
      simpa [hq] using h

theorem lookupA_append_single {κ α : Type} [DecidableEq κ] (m : List (κ × α)) (k : κ) (v : α)
    (h : ¬ m.any (fun p => p.1 = k) = true) :
    lookupA (m ++ [(k, v)]) k = some v := by
  induction m with
  | nil => simp [lookupA_cons]
  | cons q m ih =>
    simp only [List.any_cons, Bool.or_eq_true, decide_eq_true_eq, not_or] at h
    rw [List.cons_append, lookupA_cons, if_neg h.1]
    exact ih (by simpa using h.2)

theorem lookupA_mapSet_self {κ α : Type} [DecidableEq κ] (m : List (κ × α)) (k : κ) (v : α) :
    lookupA (mapSet m k v) k = some v := by
  rw [mapSet]
  by_cases h : m.any (fun p => p.1 = k) = true
  · rw [if_pos h]; exact lookupA_replace_self m k v h
  · rw [if_neg h]; exact lookupA_append_single m k v h

theorem lookupA_replace_ne {κ α : Type} [DecidableEq κ] (m : List (κ × α)) (k k' : κ) (v : α)
    (h : ¬ k' = k) :
    lookupA (m.map (fun p => if p.1 = k then (k, v) else p)) k' = lookupA m k' := by
  induction m with
  | nil => rfl
  | cons q m ih =>
    by_cases hq : q.1 = k
    · rw [List.map_cons, if_pos hq, lookupA_cons, lookupA_cons]
      rw [if_neg (show ¬ (k, v).1 = k' from fun hh => h hh.symm)]
      rw [if_neg (show ¬ q.1 = k' from fun hh => h (hh ▸ hq))]
      exact ih
    · rw [List.map_cons, if_neg hq, lookupA_cons, lookupA_cons]
      by_cases hq' : q.1 = k'
      · rw [if_pos hq', if_pos hq']
      · rw [if_neg hq', if_neg hq']
        exact ih

theorem lookupA_append_single_ne {κ α : Type} [DecidableEq κ] (m : List (κ × α)) (k k' : κ)
    (v : α) (h : ¬ k' = k) :
    lookupA (m ++ [(k, v)]) k' = lookupA m k' := by
  induction m with
  | nil => rw [List.nil_append, lookupA_cons, if_neg (fun hh => h hh.symm)]
  | cons q m ih =>
    rw [List.cons_append, lookupA_cons, lookupA_cons]
    by_cases hq : q.1 = k'
    · rw [if_pos hq, if_pos hq]
    · rw [if_neg hq, if_neg hq]
      exact ih

theorem lookupA_mapSet_ne {κ α : Type} [DecidableEq κ] (m : List (κ × α)) (k k' : κ) (v : α)
    (h : ¬ k' = k) :
    lookupA (mapSet m k v) k' = lookupA m k' := by
  rw [mapSet]
  by_cases hany : m.any (fun p => p.1 = k) = true
  · rw [if_pos hany]; exact lookupA_replace_ne m k k' v h
  · rw [if_neg hany]; exact lookupA_append_single_ne m k k' v h

theorem mapSet_forall {κ α : Type} [DecidableEq κ] {P : κ → α → Prop} {m : List (κ × α)}
    {k : κ} {v : α} (hm : ∀ p ∈ m, P p.1 p.2) (hv : P k v) :
    ∀ p ∈ mapSet m k v, P p.1 p.2 := by
  intro p hp
  rw [mapSet] at hp
  by_cases hany : m.any (fun q => q.1 = k) = true
  · rw [if_pos hany] at hp
    rcases List.mem_map.mp hp with ⟨q, hq, hqp⟩
    by_cases hq1 : q.1 = k
    · rw [if_pos hq1] at hqp
      rw [← hqp]
      exact hv
    · rw [if_neg hq1] at hqp
      rw [← hqp]
      exact hm q hq
  · rw [if_neg hany] at hp
    rcases List.mem_append.mp hp with hp' | hp'
    · exact hm p hp'
    · rcases List.mem_singleton.mp hp' with rfl
      exact hv

theorem mapSet_keys {κ α : Type} [DecidableEq κ] (m : List (κ × α)) (k : κ) (v : α) :
    (mapSet m k v).map Prod.fst =
      if m.any (fun p => p.1 = k) = true then m.map Prod.fst else m.map Prod.fst ++ [k] := by
  rw [mapSet]
  by_cases hany : m.any (fun p => p.1 = k) = true
  · rw [if_pos hany, if_pos hany, List.map_map]
    refine List.map_congr_left ?_
    intro q _
    by_cases hq : q.1 = k
    · simp [hq]
    · simp [hq]
  · rw [if_neg hany, if_neg hany]
    simp

theorem mapSet_keys_nodup {κ α : Type} [DecidableEq κ] {m : List (κ × α)} {k : κ} {v : α}
    (h : (m.map Prod.fst).Nodup) : ((mapSet m k v).map Prod.fst).Nodup := by
  rw [mapSet_keys]
  by_cases hany : m.any (fun p => p.1 = k) = true
  · rw [if_pos hany]; exact h
  · rw [if_neg hany]
    have hk : k ∉ m.map Prod.fst := by
      intro hmem
      rcases List.mem_map.mp hmem with ⟨q, hq, hq1⟩
      exact hany (List.any_eq_true.mpr ⟨q, hq, by simp [hq1]⟩)
    simp [List.nodup_append, h, List.disjoint_singleton, hk]

theorem mapSet_ne_nil {κ α : Type} [DecidableEq κ] (m : List (κ × α)) (k : κ) (v : α) :
    mapSet m k v ≠ [] := by
  rw [mapSet]
  by_cases hany : m.any (fun p => p.1 = k) = true
  · rw [if_pos hany]
    cases m with
    | nil => simp at hany
    | cons q m => simp
  · rw [if_neg hany]
    simp

theorem lookupA_of_mem_nodup {κ α : Type} [DecidableEq κ] {m : List (κ × α)} {k : κ} {v : α}
    (hnd : (m.map Prod.fst).Nodup) (hm : (k, v) ∈ m) : lookupA m k = some v := by
  induction m with
  | nil => cases hm
  | cons q m ih =>
    rcases List.nodup_cons.mp (show (q.1 :: m.map Prod.fst).Nodup from hnd) with ⟨hq1, hnd'⟩
    rcases List.mem_cons.mp hm with rfl | hm'
    · rw [lookupA_cons, if_pos rfl]
    · rw [lookupA_cons, if_neg]
      · exact ih hnd' hm'
      · intro hq
        exact hq1 (hq ▸ List.mem_map_of_mem Prod.fst hm')

theorem mem_of_lookupA {κ α : Type} [DecidableEq κ] {m : List (κ × α)} {k : κ} {v : α}
    (h : lookupA m k = some v) : (k, v) ∈ m := by
  rw [lookupA] at h
  cases hf : m.find? (fun p => p.1 = k) with
  | none => rw [hf] at h; cases h
  | some p =>
    rw [hf] at h
    have hp1 : p.1 = k := by simpa using List.find?_some hf
    have hp2 : p.2 = v := by simpa using h
    have := List.mem_of_find?_eq_some hf
    rwa [← hp1, ← hp2]

/-! ### Helper lemmas: the stable descending sort -/

theorem insertByDesc_perm {α β : Type} [LinearOrder β] (key : α → β) (x : α) (l : List α) :
    (insertByDesc key x l).Perm (x :: l) := by
  induction l with
  | nil => exact List.Perm.refl _
  | cons y ys ih =>
    by_cases h : key y < key x
    · rw [insertByDesc, if_pos h]
    · rw [insertByDesc, if_neg h]
      exact (ih.cons y).trans (List.Perm.swap x y ys)

theorem sortByDescAux_perm {α β : Type} [LinearOrder β] (key : α → β) (l : List α) :
    ∀ acc : List α, (sortByDescAux key acc l).Perm (acc ++ l) := by
  induction l with
  | nil => intro acc; simp [sortByDescAux]
  | cons x xs ih =>
    intro acc
    rw [sortByDescAux]
    exact ((ih (insertByDesc key x acc)).trans
      (((insertByDesc_perm key x acc).append_right xs).trans List.perm_middle.symm))

theorem sortByDesc_perm {α β : Type} [LinearOrder β] (key : α → β) (l : List α) :
    (sortByDesc key l).Perm l := by
  simpa using sortByDescAux_perm key l []

theorem insertByDesc_pairwise {α β : Type} [LinearOrder β] {key : α → β} {x : α} {l : List α}
    (h : l.Pairwise (fun a b => key b ≤ key a)) :
    (insertByDesc key x l).Pairwise (fun a b => key b ≤ key a) := by
  induction l with
  | nil => simp [insertByDesc]
  | cons y ys ih =>
    rcases List.pairwise_cons.mp h with ⟨hy, hys⟩
    by_cases hlt : key y < key x
    · rw [insertByDesc, if_pos hlt]
      refine List.pairwise_cons.mpr ⟨?_, h⟩
      intro z hz
      rcases List.mem_cons.mp hz with rfl | hz'
      · exact le_of_lt hlt
      · exact le_trans (hy z hz') (le_of_lt hlt)
    · rw [insertByDesc, if_neg hlt]
      refine List.pairwise_cons.mpr ⟨?_, ih hys⟩
      intro z hz
      rcases List.mem_cons.mp ((insertByDesc_perm key x ys).mem_iff.mp hz) with rfl | hz'
      · exact le_of_not_lt hlt
      · exact hy z hz'

theorem sortByDescAux_pairwise {α β : Type} [LinearOrder β] {key : α → β} {l : List α} :
    ∀ {acc : List α}, acc.Pairwise (fun a b => key b ≤ key a) →
      (sortByDescAux key acc l).Pairwise (fun a b => key b ≤ key a) := by
  induction l with
  | nil => intro acc hacc; exact hacc
  | cons x xs ih =>
    intro acc hacc
    rw [sortByDescAux]
    exact ih (insertByDesc_pairwise hacc)

theorem sortByDesc_pairwise {α β : Type} [LinearOrder β] (key : α → β) (l : List α) :
    (sortByDesc key l).Pairwise (fun a b => key b ≤ key a) :=
  sortByDescAux_pairwise List.Pairwise.nil

theorem insertByDesc_filter {α β : Type} [LinearOrder β] {key : α → β} (c : β) (x : α)
    {l : List α} (h : l.Pairwise (fun a b => key b ≤ key a)) :
    (insertByDesc key x l).filter (fun z => key z = c) =
      if key x = c then l.filter (fun z => key z = c) ++ [x]
      else l.filter (fun z => key z = c) := by
  induction l with
  | nil =>
    by_cases hx : key x = c
    · rw [if_pos hx]
      simp [insertByDesc, List.filter_cons, hx]
    · rw [if_neg hx]
      simp [insertByDesc, List.filter_cons, hx]
  | cons y ys ih =>
    rcases List.pairwise_cons.mp h with ⟨hy, hys⟩
    by_cases hlt : key y < key x
    · rw [insertByDesc, if_pos hlt]
      by_cases hx : key x = c
      · rw [if_pos hx]
        have hnil : (y :: ys).filter (fun z => key z = c) = [] := by
          rw [List.filter_eq_nil_iff]
          intro z hz
          simp only [decide_eq_true_eq]
          intro hzc
          rcases List.mem_cons.mp hz with rfl | hz'
          · exact absurd (hzc.trans hx.symm) (ne_of_lt hlt)
          · exact absurd (hzc.trans hx.symm)
              (ne_of_lt (lt_of_le_of_lt (hy z hz') hlt))
        rw [List.filter_cons, hnil]
        simp [hx]
      · rw [if_neg hx]
        rw [List.filter_cons]
        simp [hx]
    · rw [insertByDesc, if_neg hlt]
      rw [List.filter_cons, List.filter_cons, ih hys]
      by_cases hyc : key y = c
      · by_cases hx : key x = c
        · simp [hyc, hx]
        · simp [hyc, hx]
      · by_cases hx : key x = c
        · simp [hyc, hx]
        · simp [hyc, hx]

theorem sortByDescAux_filter {α β : Type} [LinearOrder β] {key : α → β} (c : β) {l : List α} :
    ∀ {acc : List α}, acc.Pairwise (fun a b => key b ≤ key a) →
      (sortByDescAux key acc l).filter (fun z => key z = c) =
        acc.filter (fun z => key z = c) ++ l.filter (fun z => key z = c) := by
  induction l with
  | nil => intro acc _; simp [sortByDescAux]
  | cons x xs ih =>
    intro acc hacc
    rw [sortByDescAux, ih (insertByDesc_pairwise hacc), insertByDesc_filter c x hacc,
      List.filter_cons]
    by_cases hx : key x = c
    · simp [hx]
    · simp [hx]

/-- Stability of the modelled sort: within every equal-key class the sorted
list keeps exactly the original elements in their original order. -/
theorem sortByDesc_filter {α β : Type} [LinearOrder β] (key : α → β) (c : β) (l : List α) :
    (sortByDesc key l).filter (fun z => key z = c) = l.filter (fun z => key z = c) := by
  rw [sortByDesc, sortByDescAux_filter c List.Pairwise.nil]
  simp

/-! ### Helper lemmas: fold invariants -/

theorem foldl_inv {γ σ : Type} {I : γ → Prop} {f : γ → σ → γ} {l : List σ} {a : γ}
    (h0 : I a) (hstep : ∀ b x, x ∈ l → I b → I (f b x)) : I (l.foldl f a) := by
  induction l generalizing a with
  | nil => exact h0
  | cons x xs ih =>
    rw [List.foldl_cons]
    exact ih (hstep a x (List.mem_cons_self x xs) h0)
      (fun b y hy => hstep b y (List.mem_cons_of_mem x hy))

theorem lookupA_foldl_mapSet {κ α σ : Type} [DecidableEq κ] (g : σ → κ) (e : σ → α)
    (K : List σ) (k : κ) (hK : (K.map g).Nodup) :
    ∀ m0 : List (κ × α),
      lookupA (K.foldl (fun m sd => mapSet m (g sd) (e sd)) m0) k =
        match K.find? (fun sd => g sd = k) with
        | some sd => some (e sd)
        | none => lookupA m0 k := by
  induction K with
  | nil => intro m0; rfl
  | cons sd K ih =>
    intro m0
    rcases List.nodup_cons.mp (show (g sd :: K.map g).Nodup from hK) with ⟨hsd, hK'⟩
    rw [List.foldl_cons, ih hK' (mapSet m0 (g sd) (e sd))]
    by_cases h : g sd = k
    · have hnone : K.find? (fun x => g x = k) = none := by
        rw [List.find?_eq_none]
        intro x hx
        simp only [decide_eq_true_eq]
        intro hxk
        exact hsd ((hxk.trans h.symm) ▸ List.mem_map_of_mem g hx)
      rw [hnone, List.find?_cons_of_pos _ (by simp [h])]
      rw [← h, lookupA_mapSet_self]
    · rw [List.find?_cons_of_neg _ (by simp [h])]
      cases hf : K.find? (fun x => g x = k) with
      | some x => rfl
      | none => exact lookupA_mapSet_ne _ _ _ _ (fun hh => h hh.symm)

/-! ### Helper lemmas: unfolded forms of the searches -/

theorem keywordSearch_eq (documents : List Doc) (query : String) (maxResults : Nat) :
    keywordSearch documents query maxResults =
      (sortByDesc ScoredDoc.relevanceScore (documents.filterMap (fun doc =>
        if 0 < keywordScore query doc then some (⟨doc, keywordScore query doc⟩ : ScoredDoc)
        else none))).take maxResults := rfl

theorem vectorSearch_eq (embeddings : List (String × TermVec)) (query : String)
    (docIds : List String) (topK : Nat) :
    vectorSearch embeddings query docIds topK =
      (sortByDesc Prod.snd (docIds.filterMap (fun docId =>
        match lookupA embeddings docId with
        | some docVector => some (docId, cosineSimilarity (vectorize query) docVector)
        | none => none))).take topK := rfl

theorem fusedMap_eq (documents : List Doc) (embeddings : List (String × TermVec))
    (query : String) (maxResults : Nat) :
    fusedMap documents embeddings query maxResults =
      (vectorSearch embeddings query (documents.map Doc.id) (maxResults * 2)).foldl
        (fuseVector documents)
        ((keywordSearch documents query (maxResults * 2)).foldl
          (fun m sd => mapSet m sd.doc.id (kwEntry sd)) []) := rfl

/-! ### Helper lemmas: membership in the search results -/

theorem mem_keywordSearch {documents : List Doc} {query : String} {maxResults : Nat}
    {sd : ScoredDoc} (h : sd ∈ keywordSearch documents query maxResults) :
    sd.doc ∈ documents ∧ sd.relevanceScore = keywordScore query sd.doc ∧
      0 < sd.relevanceScore := by
  rw [keywordSearch_eq] at h
  have h2 := (sortByDesc_perm ScoredDoc.relevanceScore _).subset
    ((List.take_sublist _ _).subset h)
  rcases List.mem_filterMap.mp h2 with ⟨doc, hdoc, hf⟩
  by_cases hpos : 0 < keywordScore query doc
  · rw [if_pos hpos] at hf
    cases hf
    exact ⟨hdoc, rfl, hpos⟩
  · rw [if_neg hpos] at hf
    cases hf

theorem mem_vectorSearch {embeddings : List (String × TermVec)} {query : String}
    {docIds : List String} {topK : Nat} {r : String × ℝ}
    (h : r ∈ vectorSearch embeddings query docIds topK) :
    r.1 ∈ docIds ∧ ∃ v, lookupA embeddings r.1 = some v ∧
      r.2 = cosineSimilarity (vectorize query) v := by
  rw [vectorSearch_eq] at h
  have h2 := (sortByDesc_perm (Prod.snd (α := String) (β := ℝ)) _).subset
    ((List.take_sublist _ _).subset h)
  rcases List.mem_filterMap.mp h2 with ⟨docId, hid, hf⟩
  cases hl : lookupA embeddings docId with
  | none => rw [hl] at hf; cases hf
  | some v =>
    rw [hl] at hf
    cases hf
    exact ⟨hid, v, hl, rfl⟩

/-! ### Helper lemmas: the result ids are distinct -/

theorem keywordResults_doc_sublist (f : Doc → Nat) (documents : List Doc) :
    ((documents.filterMap (fun doc =>
      if 0 < f doc then some (⟨doc, f doc⟩ : ScoredDoc) else none)).map
        ScoredDoc.doc).Sublist documents := by
  induction documents with
  | nil => simp
  | cons d ds ih =>
    rw [List.filterMap_cons]
    by_cases h : 0 < f d
    · rw [if_pos h]
      simpa using ih.cons₂ d
    · rw [if_neg h]
      exact ih.cons d

theorem keywordSearch_ids_nodup (documents : List Doc) (query : String) (maxResults : Nat)
    (hdocs : (documents.map Doc.id).Nodup) :
    ((keywordSearch documents query maxResults).map (fun sd => sd.doc.id)).Nodup := by
  rw [keywordSearch_eq]
  have h1 : (((documents.filterMap (fun doc =>
      if 0 < keywordScore query doc then some (⟨doc, keywordScore query doc⟩ : ScoredDoc)
      else none))).map (fun sd => sd.doc.id)).Nodup := by
    have heq : ((documents.filterMap (fun doc =>
        if 0 < keywordScore query doc then some (⟨doc, keywordScore query doc⟩ : ScoredDoc)
        else none)).map (fun sd => sd.doc.id)) =
        ((documents.filterMap (fun doc =>
          if 0 < keywordScore query doc then some (⟨doc, keywordScore query doc⟩ : ScoredDoc)
          else none)).map ScoredDoc.doc).map Doc.id := by
      rw [List.map_map]
      rfl
    rw [heq]
    exact hdocs.sublist ((keywordResults_doc_sublist (keywordScore query) documents).map Doc.id)
  have h2 := (((sortByDesc_perm ScoredDoc.relevanceScore _).map
    (fun sd => sd.doc.id)).nodup_iff).mpr h1
  rw [List.map_take]
  exact (List.take_sublist _ _).nodup h2

theorem simsIds_sublist (embeddings : List (String × TermVec)) (qv : TermVec)
    (docIds : List String) :
    ((docIds.filterMap (fun docId =>
      match lookupA embeddings docId with
      | some docVector => some (docId, cosineSimilarity qv docVector)
      | none => none)).map Prod.fst).Sublist docIds := by
  induction docIds with
  | nil => simp
  | cons i ids ih =>
    rw [List.filterMap_cons]
    cases hl : lookupA embeddings i with
    | none => exact ih.cons i
    | some v => simpa using ih.cons₂ i

theorem vectorSearch_ids_nodup (embeddings : List (String × TermVec)) (query : String)
    (docIds : List String) (topK : Nat) (hids : docIds.Nodup) :
    ((vectorSearch embeddings query docIds topK).map Prod.fst).Nodup := by
  rw [vectorSearch_eq]
  have h1 := hids.sublist (simsIds_sublist embeddings (vectorize query) docIds)
  have h2 := (((sortByDesc_perm (Prod.snd (α := String) (β := ℝ)) _).map
    Prod.fst).nodup_iff).mpr h1
  rw [List.map_take]
  exact (List.take_sublist _ _).nodup h2

/-! ### Helper lemmas: the fusion fold -/

theorem fuseVector_none (documents : List Doc) (m : List (String × FusedDoc))
    (res : String × ℝ) (hf : documents.find? (fun d => d.id = res.1) = none) :
    fuseVector documents m res = m := by
  simp only [fuseVector, hf]

theorem fuseVector_some_existing (documents : List Doc) (m : List (String × FusedDoc))
    (res : String × ℝ) (doc : Doc) (existing : FusedDoc)
    (hf : documents.find? (fun d => d.id = res.1) = some doc)
    (hl : lookupA m doc.id = some existing) :
    fuseVector documents m res = mapSet m doc.id { existing with
      vectorScore := res.2
      combinedScore := (existing.keywordScore : ℝ) * 0.6 + res.2 * 0.4 } := by
  simp only [fuseVector, hf, hl]

theorem fuseVector_some_new (documents : List Doc) (m : List (String × FusedDoc))
    (res : String × ℝ) (doc : Doc)
    (hf : documents.find? (fun d => d.id = res.1) = some doc)
    (hl : lookupA m doc.id = none) :
    fuseVector documents m res = mapSet m doc.id { doc := doc
                                                   keywordScore := 0
                                                   vectorScore := res.2
                                                   combinedScore := res.2 * 0.4 } := by
  simp only [fuseVector, hf, hl]

theorem lookupA_fuseVector_ne (documents : List Doc) (m : List (String × FusedDoc))
    (res : String × ℝ) (k : String) (h : ¬ k = res.1) :
    lookupA (fuseVector documents m res) k = lookupA m k := by
  cases hf : documents.find? (fun d => d.id = res.1) with
  | none => rw [fuseVector_none _ _ _ hf]
  | some doc =>
    have hdoc : doc.id = res.1 := by simpa using List.find?_some hf
    cases hl : lookupA m doc.id with
    | some existing =>
      rw [fuseVector_some_existing _ _ _ _ _ hf hl]
      exact lookupA_mapSet_ne _ _ _ _ (fun hh => h (hh.trans hdoc))
    | none =>
      rw [fuseVector_some_new _ _ _ _ hf hl]
      exact lookupA_mapSet_ne _ _ _ _ (fun hh => h (hh.trans hdoc))

theorem lookupA_foldl_fuseVector (documents : List Doc) (V : List (String × ℝ)) (k : String)
    (hV : (V.map Prod.fst).Nodup) :
    ∀ m0 : List (String × FusedDoc),
      lookupA (V.foldl (fuseVector documents) m0) k =
        match V.find? (fun r => r.1 = k) with
        | some r =>
          match documents.find? (fun d => d.id = r.1) with
          | some doc =>
            match lookupA m0 k with
            | some existing => some { existing with
                vectorScore := r.2
                combinedScore := (existing.keywordScore : ℝ) * 0.6 + r.2 * 0.4 }
            | none => some { doc := doc
                             keywordScore := 0
                             vectorScore := r.2
                             combinedScore := r.2 * 0.4 }
          | none => lookupA m0 k
        | none => lookupA m0 k := by
  induction V with
  | nil => intro m0; rfl
  | cons r V ih =>
    intro m0
    rcases List.nodup_cons.mp (show (r.1 :: V.map Prod.fst).Nodup from hV) with ⟨hr, hV'⟩
    rw [List.foldl_cons, ih hV' (fuseVector documents m0 r)]
    by_cases h : r.1 = k
    · have hnone : V.find? (fun x => x.1 = k) = none := by
        rw [List.find?_eq_none]
        intro x hx
        simp only [decide_eq_true_eq]
        intro hxk
        exact hr ((hxk.trans h.symm) ▸ List.mem_map_of_mem Prod.fst hx)
      rw [hnone, List.find?_cons_of_pos _ (by simp [h])]
      dsimp only
      cases hf : documents.find? (fun d => d.id = r.1) with
      | none => rw [fuseVector_none _ _ _ hf]
      | some doc =>
        have hdoc : doc.id = r.1 := by simpa using List.find?_some hf
        cases hl : lookupA m0 k with
        | some existing =>
          have hl' : lookupA m0 doc.id = some existing := by rw [hdoc.trans h]; exact hl
          rw [fuseVector_some_existing _ _ _ _ _ hf hl', hdoc.trans h]
          exact lookupA_mapSet_self _ _ _
        | none =>
          have hl' : lookupA m0 doc.id = none := by rw [hdoc.trans h]; exact hl
          rw [fuseVector_some_new _ _ _ _ hf hl', hdoc.trans h]
          exact lookupA_mapSet_self _ _ _
    · rw [List.find?_cons_of_neg _ (by simp [h])]
      have hne := lookupA_fuseVector_ne documents m0 r k (fun hh => h hh.symm)
      simp only [hne]

theorem fusedMap_inv (documents : List Doc) (embeddings : List (String × TermVec))
    (query : String) (maxResults : Nat) :
    ∀ p ∈ fusedMap documents embeddings query maxResults,
      p.2.doc.id = p.1 ∧ p.2.doc ∈ documents := by
  rw [fusedMap_eq]
  have hbase : ∀ p ∈ (keywordSearch documents query (maxResults * 2)).foldl
      (fun m sd => mapSet m sd.doc.id (kwEntry sd)) ([] : List (String × FusedDoc)),
      p.2.doc.id = p.1 ∧ p.2.doc ∈ documents := by
    refine foldl_inv (I := fun (m : List (String × FusedDoc)) => ∀ p ∈ m, p.2.doc.id = p.1 ∧ p.2.doc ∈ documents) ?_ ?_
    · intro p hp
      cases hp
    · intro m sd hsd hm
      exact mapSet_forall (P := fun (k : String) (v : FusedDoc) => v.doc.id = k ∧ v.doc ∈ documents) hm
        ⟨rfl, (mem_keywordSearch hsd).1⟩
  refine foldl_inv (I := fun (m : List (String × FusedDoc)) => ∀ p ∈ m, p.2.doc.id = p.1 ∧ p.2.doc ∈ documents) hbase ?_
  intro m r _ hm
  cases hf : documents.find? (fun d => d.id = r.1) with
  | none =>
    rw [fuseVector_none _ _ _ hf]
    exact hm
  | some doc =>
    have hdocmem : doc ∈ documents := List.mem_of_find?_eq_some hf
    cases hl : lookupA m doc.id with
    | some existing =>
      have hex := hm _ (mem_of_lookupA hl)
      rw [fuseVector_some_existing _ _ _ _ _ hf hl]
      exact mapSet_forall (P := fun (k : String) (v : FusedDoc) => v.doc.id = k ∧ v.doc ∈ documents) hm
        ⟨hex.1, hex.2⟩
    | none =>
      rw [fuseVector_some_new _ _ _ _ hf hl]
      exact mapSet_forall (P := fun (k : String) (v : FusedDoc) => v.doc.id = k ∧ v.doc ∈ documents) hm
        ⟨rfl, hdocmem⟩

theorem fusedMap_keys_nodup (documents : List Doc) (embeddings : List (String × TermVec))
    (query : String) (maxResults : Nat) :
    ((fusedMap documents embeddings query maxResults).map Prod.fst).Nodup := by
  rw [fusedMap_eq]
  have hbase : (((keywordSearch documents query (maxResults * 2)).foldl
      (fun m sd => mapSet m sd.doc.id (kwEntry sd))
      ([] : List (String × FusedDoc))).map Prod.fst).Nodup := by
    refine foldl_inv (I := fun (m : List (String × FusedDoc)) => (m.map Prod.fst).Nodup) List.nodup_nil ?_
    intro m sd _ hm
    exact mapSet_keys_nodup hm
  refine foldl_inv (I := fun (m : List (String × FusedDoc)) => (m.map Prod.fst).Nodup) hbase ?_
  intro m r _ hm
  cases hf : documents.find? (fun d => d.id = r.1) with
  | none =>
    rw [fuseVector_none _ _ _ hf]
    exact hm
  | some doc =>
    cases hl : lookupA m doc.id with
    | some existing =>
      rw [fuseVector_some_existing _ _ _ _ _ hf hl]
      exact mapSet_keys_nodup hm
    | none =>
      rw [fuseVector_some_new _ _ _ _ hf hl]
      exact mapSet_keys_nodup hm

theorem fusedMap_ne_nil (documents : List Doc) (embeddings : List (String × TermVec))
    (query : String) (maxResults : Nat)
    (hK : keywordSearch documents query (maxResults * 2) ≠ []) :
    fusedMap documents embeddings query maxResults ≠ [] := by
  rw [fusedMap_eq]
  have hbase : (keywordSearch documents query (maxResults * 2)).foldl
      (fun m sd => mapSet m sd.doc.id (kwEntry sd)) ([] : List (String × FusedDoc)) ≠ [] := by
    cases hKl : keywordSearch documents query (maxResults * 2) with
    | nil => exact absurd hKl hK
    | cons sd K' =>
      rw [List.foldl_cons]
      refine foldl_inv (I := fun (m : List (String × FusedDoc)) => m ≠ []) (mapSet_ne_nil _ _ _) ?_
      intro m sd' _ _
      exact mapSet_ne_nil _ _ _
  refine foldl_inv (I := fun (m : List (String × FusedDoc)) => m ≠ []) hbase ?_
  intro m r _ hm
  cases hf : documents.find? (fun d => d.id = r.1) with
  | none =>
    rw [fuseVector_none _ _ _ hf]
    exact hm
  | some doc =>
    cases hl : lookupA m doc.id with
    | some existing =>
      rw [fuseVector_some_existing _ _ _ _ _ hf hl]
      exact mapSet_ne_nil _ _ _
    | none =>
      rw [fuseVector_some_new _ _ _ _ hf hl]
      exact mapSet_ne_nil _ _ _

/-! ### Helper lemmas: cosine similarity and the keyword scorer -/

theorem commonWords_self {v : TermVec} (hnd : (keysOf v).Nodup) :
    commonWords v v = keysOf v := by
  rw [commonWords, dedupFirst_eq_self hnd, List.filter_eq_self]
  intro a ha
  simpa using ha

theorem containsSub_nil (t : List Char) : containsSub [] t = true := by
  cases t with
  | nil => rfl
  | cons c cs => rfl

theorem find?_eq_of_mem_nodup {σ κ : Type} [DecidableEq κ] {g : σ → κ} {l : List σ} {x : σ}
    (hnd : (l.map g).Nodup) (hx : x ∈ l) {k : κ} (hk : g x = k) :
    l.find? (fun y => g y = k) = some x := by
  induction l with
  | nil => cases hx
  | cons y ys ih =>
    rcases List.nodup_cons.mp (show (g y :: ys.map g).Nodup from hnd) with ⟨hy, hnd'⟩
    rcases List.mem_cons.mp hx with rfl | hx'
    · rw [List.find?_cons_of_pos _ (by simp [hk])]
    · have hne : ¬ g y = k := by
        intro h
        exact hy ((h.trans hk.symm).symm ▸ List.mem_map_of_mem g hx')
      rw [List.find?_cons_of_neg _ (by simp [hne])]
      exact ih hnd' hx'

/-! ## The claims -/

/-- C6: for every term vector `V` that is non-empty and has a nonzero weight
(its keys being distinct, as for every vector the source builds),
`cosineSimilarity V V = 1`: the dot product and both norms coincide, and
`√S·√S = S` cancels exactly. -/
theorem cosineSimilarity_self_eq_one (v : TermVec) (hnd : (keysOf v).Nodup)
    (hnz : ∃ p ∈ v, p.2 ≠ 0) : cosineSimilarity v v = 1 := by
  obtain ⟨p, hp, hpne⟩ := hnz
  have hne : commonWords v v ≠ [] := by
    rw [commonWords_self hnd]
    intro h
    rw [keysOf, List.map_eq_nil_iff] at h
    subst h
    cases hp
  rw [cosineSimilarity, if_neg hne]
  dsimp only
  rw [commonWords_self hnd, dedupFirst_eq_self hnd]
  have hSpos : 0 < ((keysOf v).map (fun w => getVal v w * getVal v w)).sum := by
    have hmem : getVal v p.1 * getVal v p.1 ∈
        (keysOf v).map (fun w => getVal v w * getVal v w) :=
      List.mem_map_of_mem _ (List.mem_map_of_mem Prod.fst hp)
    have hterm : 0 < getVal v p.1 * getVal v p.1 := by
      rw [getVal_of_mem hnd hp]
      exact mul_self_pos.mpr hpne
    have hnonneg : ∀ x ∈ (keysOf v).map (fun w => getVal v w * getVal v w), 0 ≤ x := by
      intro x hx
      rcases List.mem_map.mp hx with ⟨w, _, rfl⟩
      exact mul_self_nonneg _
    exact lt_of_lt_of_le hterm (List.single_le_sum hnonneg _ hmem)
  have h0 : (0:ℝ) ≤ ((((keysOf v).map (fun w => getVal v w * getVal v w)).sum : ℚ) : ℝ) := by
    exact_mod_cast hSpos.le
  rw [Real.mul_self_sqrt h0, div_self]
  exact_mod_cast hSpos.ne.symm

/-- C6 witness: a concrete one-entry vector is perfectly similar to itself. -/
theorem cosineSimilarity_self_eq_one_witness :
    cosineSimilarity [(['a','b','c'], (1:ℚ))] [(['a','b','c'], (1:ℚ))] = 1 :=
  cosineSimilarity_self_eq_one [(['a','b','c'], (1:ℚ))] (by decide)
    ⟨(['a','b','c'], (1:ℚ)), List.mem_singleton.mpr rfl, by norm_num⟩

/-- C7: when one or both vectors are empty, or the key sets are disjoint,
`cosineSimilarity` short-circuits on the empty common-key set and returns
exactly 0 — no exception path and no NaN-producing division is reached. -/
theorem cosineSimilarity_degenerate_eq_zero (v1 v2 : TermVec)
    (h : v1 = [] ∨ v2 = [] ∨ ∀ w ∈ keysOf v1, w ∉ keysOf v2) :
    cosineSimilarity v1 v2 = 0 := by
  have hcw : commonWords v1 v2 = [] := by
    rw [commonWords, List.filter_eq_nil_iff]
    intro w hw
    have hw1 : w ∈ keysOf v1 := mem_dedupFirst.mp hw
    rcases h with rfl | rfl | hdisj
    · exact absurd hw1 (List.not_mem_nil w)
    · simp [keysOf]
    · simp only [decide_eq_true_eq]
      exact hdisj w hw1
  rw [cosineSimilarity, if_pos hcw]

/-- C7 witness: an empty vector against a non-empty one, and two disjoint
one-entry vectors, both score exactly 0. -/
theorem cosineSimilarity_degenerate_eq_zero_witness :
    cosineSimilarity [] [(['a','b','c'], (1:ℚ))] = 0 ∧
      cosineSimilarity [(['a','b','c'], (1:ℚ))] [(['x','y','z'], (1:ℚ))] = 0 :=
  ⟨cosineSimilarity_degenerate_eq_zero _ _ (Or.inl rfl),
   cosineSimilarity_degenerate_eq_zero _ _ (Or.inr (Or.inr (by decide)))⟩

/-- C8: `vectorize` keys are exactly the case-folded tokens of length > 2
(each once, in first-occurrence order); each key maps to its frequency over
the *total* token count; a token-free text gives the empty vector with no
division; and every weight lies in [0, 1]. -/
theorem vectorize_spec (text : String) :
    ((vectorize text).map Prod.fst =
      dedupFirst ((tokenize text).filter (fun w => 2 < w.length)))
    ∧ (∀ w : List Char,
        w ∈ (vectorize text).map Prod.fst ↔ w ∈ tokenize text ∧ 2 < w.length)
    ∧ (∀ p ∈ vectorize text,
        p.2 = (((tokenize text).filter (fun w => 2 < w.length)).count p.1 : ℚ) /
            ((tokenize text).length : ℚ)
          ∧ 0 ≤ p.2 ∧ p.2 ≤ 1)
    ∧ (tokenize text = [] → vectorize text = []) := by
  have hkeys : (vectorize text).map Prod.fst =
      dedupFirst ((tokenize text).filter (fun w => 2 < w.length)) := by
    rw [vectorize]
    rw [List.map_map]
    exact List.map_id' _
  refine ⟨hkeys, ?_, ?_, ?_⟩
  · intro w
    rw [hkeys, mem_dedupFirst, List.mem_filter]
    simp
  · intro p hp
    rw [vectorize] at hp
    rcases List.mem_map.mp hp with ⟨w, hw, rfl⟩
    have hwmem : w ∈ (tokenize text).filter (fun x => 2 < x.length) := mem_dedupFirst.mp hw
    have htokne : (tokenize text).length ≠ 0 := by
      intro h
      rw [List.length_eq_zero] at h
      rw [h] at hwmem
      exact absurd hwmem (List.not_mem_nil w)
    have htokpos : 0 < ((tokenize text).length : ℚ) := by
      exact_mod_cast Nat.pos_of_ne_zero htokne
    refine ⟨rfl, ?_, ?_⟩
    · exact div_nonneg (by exact_mod_cast Nat.zero_le _) htokpos.le
    · rw [div_le_one htokpos]
      have hcount : ((tokenize text).filter (fun x => 2 < x.length)).count w ≤
          (tokenize text).length :=
        le_trans ((List.filter_sublist _).count_le w) (List.count_le_length w _)
      exact_mod_cast hcount
  · intro h
    rw [vectorize]
    rw [h]
    rfl

/-- C8 witness: the single-token text "abc" yields the one-key vector with
weight 1/1 (applied through the theorem), and the empty text tokenizes to
nothing and vectorizes to the empty vector. -/
theorem vectorize_spec_witness :
    ((['a','b','c'], ((1:ℕ):ℚ) / ((1:ℕ):ℚ)) ∈ vectorize "abc")
    ∧ (0 ≤ ((1:ℕ):ℚ) / ((1:ℕ):ℚ) ∧ ((1:ℕ):ℚ) / ((1:ℕ):ℚ) ≤ 1)
    ∧ (tokenize "" = [] ∧ vectorize "" = []) := by
  have hmem : (['a','b','c'], ((1:ℕ):ℚ) / ((1:ℕ):ℚ)) ∈ vectorize "abc" :=
    List.mem_singleton.mpr rfl
  have h := (vectorize_spec "abc").2.2.1 _ hmem
  exact ⟨hmem, ⟨h.2.1, h.2.2⟩, rfl, (vectorize_spec "").2.2.2 rfl⟩

/-- C9: `vectorSearch` returns at most `topK` pairs, sorted descending by
similarity, each carrying a candidate id that has an entry in the embeddings
table (ids without an entry are skipped, never an error); and the underlying
sort is stable: within every equal-similarity class the collected candidate
order is preserved. -/
theorem vectorSearch_spec (embeddings : List (String × TermVec)) (query : String)
    (docIds : List String) (topK : Nat) :
    (vectorSearch embeddings query docIds topK).length ≤ topK
    ∧ (vectorSearch embeddings query docIds topK).Pairwise (fun a b => b.2 ≤ a.2)
    ∧ (∀ r ∈ vectorSearch embeddings query docIds topK,
        r.1 ∈ docIds ∧ ∃ v, lookupA embeddings r.1 = some v)
    ∧ (∀ c : ℝ,
        (sortByDesc Prod.snd (docIds.filterMap (fun docId =>
          match lookupA embeddings docId with
          | some docVector => some (docId, cosineSimilarity (vectorize query) docVector)
          | none => none))).filter (fun r => r.2 = c) =
        (docIds.filterMap (fun docId =>
          match lookupA embeddings docId with
          | some docVector => some (docId, cosineSimilarity (vectorize query) docVector)
          | none => none)).filter (fun r => r.2 = c)) := by
  refine ⟨?_, ?_, ?_, ?_⟩
  · rw [vectorSearch_eq]
    exact List.length_take_le _ _
  · rw [vectorSearch_eq]
    exact (sortByDesc_pairwise Prod.snd _).sublist (List.take_sublist _ _)
  · intro r hr
    rcases mem_vectorSearch hr with ⟨h1, v, h2, _⟩
    exact ⟨h1, v, h2⟩
  · intro c
    exact sortByDesc_filter Prod.snd c _

/-- C9 witness: a one-candidate table; the single hit is returned with its id
present in the table. -/
theorem vectorSearch_spec_witness :
    (("a", cosineSimilarity (vectorize "abc") [(['x','y','z'], (1:ℚ))]) ∈
      vectorSearch [("a", [(['x','y','z'], (1:ℚ))])] "abc" ["a"] 3)
    ∧ ("a" ∈ ["a"] ∧ ∃ v, lookupA [("a", [(['x','y','z'], (1:ℚ))])] "a" = some v) := by
  have hmem : ("a", cosineSimilarity (vectorize "abc") [(['x','y','z'], (1:ℚ))]) ∈
      vectorSearch [("a", [(['x','y','z'], (1:ℚ))])] "abc" ["a"] 3 :=
    List.mem_singleton.mpr rfl
  exact ⟨hmem,
    (vectorSearch_spec [("a", [(['x','y','z'], (1:ℚ))])] "abc" ["a"] 3).2.2.1 _ hmem⟩

/-- C5: the fused map of `hybridRetrieval` is keyed by document id and every
entry's document carries its key, so no document id ever appears twice in the
output — with no assumption on the corpus. -/
theorem hybridRetrieval_nodup_ids (documents : List Doc)
    (embeddings : List (String × TermVec)) (query : String) (maxResults : Nat) :
    ((hybridRetrieval documents embeddings query maxResults).map
      (fun r => r.doc.id)).Nodup := by
  rw [hybridRetrieval]
  have hinv := fusedMap_inv documents embeddings query maxResults
  have h1 : (((fusedMap documents embeddings query maxResults).map Prod.snd).map
      (fun r => r.doc.id)).Nodup := by
    have heq : ((fusedMap documents embeddings query maxResults).map Prod.snd).map
        (fun r => r.doc.id) = (fusedMap documents embeddings query maxResults).map Prod.fst := by
      rw [List.map_map]
      refine List.map_congr_left ?_
      intro p hp
      exact (hinv p hp).1
    rw [heq]
    exact fusedMap_keys_nodup documents embeddings query maxResults
  have h2 := (((sortByDesc_perm FusedDoc.combinedScore _).map
    (fun r => r.doc.id)).nodup_iff).mpr h1
  rw [List.map_take]
  exact (List.take_sublist _ _).nodup h2

/-- C10: every result of `hybridRetrieval` is a document of the live list:
keyword entries come from the corpus scan, and a vector hit is only inserted
after `documents.find` has produced a live document (otherwise it is
dropped). -/
theorem hybridRetrieval_live_docs (documents : List Doc)
    (embeddings : List (String × TermVec)) (query : String) (maxResults : Nat) :
    ∀ r ∈ hybridRetrieval documents embeddings query maxResults,
      r.doc ∈ documents ∧ ∃ d ∈ documents, d.id = r.doc.id := by
  intro r hr
  rw [hybridRetrieval] at hr
  have h1 := (sortByDesc_perm FusedDoc.combinedScore _).subset
    ((List.take_sublist _ _).subset hr)
  rcases List.mem_map.mp h1 with ⟨p, hp, rfl⟩
  have hm := (fusedMap_inv documents embeddings query maxResults p hp).2
  exact ⟨hm, p.2.doc, hm, rfl⟩

/-- C10 witness: a one-document corpus with an empty embeddings table; the
single (keyword-only) result is the live document. -/
theorem hybridRetrieval_live_docs_witness :
    (kwEntry ⟨⟨"A", "Alpha Systems", "alpha beta gamma alpha", ["alpha"]⟩, 14⟩ ∈
      hybridRetrieval [⟨"A", "Alpha Systems", "alpha beta gamma alpha", ["alpha"]⟩]
        [] "alpha" 5)
    ∧ (⟨"A", "Alpha Systems", "alpha beta gamma alpha", ["alpha"]⟩ : Doc) ∈
        [(⟨"A", "Alpha Systems", "alpha beta gamma alpha", ["alpha"]⟩ : Doc)] := by
  have hmem : kwEntry ⟨⟨"A", "Alpha Systems", "alpha beta gamma alpha", ["alpha"]⟩, 14⟩ ∈
      hybridRetrieval [⟨"A", "Alpha Systems", "alpha beta gamma alpha", ["alpha"]⟩]
        [] "alpha" 5 :=
    List.mem_singleton.mpr rfl
  refine ⟨hmem, ?_⟩
  have h := (hybridRetrieval_live_docs
    [⟨"A", "Alpha Systems", "alpha beta gamma alpha", ["alpha"]⟩] [] "alpha" 5 _ hmem).1
  exact h

/-- C4: in every `hybridRetrieval` output over a corpus with distinct ids
(the documented corpus invariant), a result present in both the keyword and
vector result sets carries `combinedScore = keywordScore·0.6 + vectorScore·0.4`
(with its scores taken from those sets); a keyword-only result keeps its raw
keyword score as the combined score; a vector-only result is scored
`similarity·0.4`. -/
theorem hybridRetrieval_combinedScore (documents : List Doc)
    (embeddings : List (String × TermVec)) (query : String) (maxResults : Nat)
    (hdocs : (documents.map Doc.id).Nodup) (r : FusedDoc)
    (hr : r ∈ hybridRetrieval documents embeddings query maxResults) :
    (∀ sd ∈ keywordSearch documents query (maxResults * 2), sd.doc.id = r.doc.id →
      ∀ p ∈ vectorSearch embeddings query (documents.map Doc.id) (maxResults * 2),
        p.1 = r.doc.id →
        r.keywordScore = sd.relevanceScore ∧ r.vectorScore = p.2 ∧
          r.combinedScore = (sd.relevanceScore : ℝ) * 0.6 + p.2 * 0.4)
    ∧ (∀ sd ∈ keywordSearch documents query (maxResults * 2), sd.doc.id = r.doc.id →
        (∀ p ∈ vectorSearch embeddings query (documents.map Doc.id) (maxResults * 2),
          ¬ p.1 = r.doc.id) →
        r.keywordScore = sd.relevanceScore ∧ r.vectorScore = 0 ∧
          r.combinedScore = (sd.relevanceScore : ℝ))
    ∧ ((∀ sd ∈ keywordSearch documents query (maxResults * 2), ¬ sd.doc.id = r.doc.id) →
        ∀ p ∈ vectorSearch embeddings query (documents.map Doc.id) (maxResults * 2),
          p.1 = r.doc.id →
          r.keywordScore = 0 ∧ r.vectorScore = p.2 ∧ r.combinedScore = p.2 * 0.4) := by
  rw [hybridRetrieval] at hr
  have h1 := (sortByDesc_perm FusedDoc.combinedScore _).subset
    ((List.take_sublist _ _).subset hr)
  rcases List.mem_map.mp h1 with ⟨q, hq, hq2⟩
  have hqid : q.1 = r.doc.id := by
    have h := (fusedMap_inv documents embeddings query maxResults q hq).1
    rw [hq2] at h
    exact h.symm
  have hKnd : ((keywordSearch documents query (maxResults * 2)).map
      (fun sd => sd.doc.id)).Nodup :=
    keywordSearch_ids_nodup documents query (maxResults * 2) hdocs
  have hVnd : ((vectorSearch embeddings query (documents.map Doc.id)
      (maxResults * 2)).map Prod.fst).Nodup :=
    vectorSearch_ids_nodup embeddings query (documents.map Doc.id) (maxResults * 2) hdocs
  have hlook : lookupA (fusedMap documents embeddings query maxResults) r.doc.id = some r := by
    rw [← hqid]
    have h := lookupA_of_mem_nodup
      (fusedMap_keys_nodup documents embeddings query maxResults)
      (show (q.1, q.2) ∈ fusedMap documents embeddings query maxResults by simpa using hq)
    rw [h, hq2]
  rw [fusedMap_eq,
    lookupA_foldl_fuseVector documents _ r.doc.id hVnd _] at hlook
  rw [lookupA_foldl_mapSet (fun sd => sd.doc.id) kwEntry _ r.doc.id hKnd []] at hlook
  refine ⟨?_, ?_, ?_⟩
  · intro sd hsd hsdid p hp hpid
    have hfK := find?_eq_of_mem_nodup hKnd hsd hsdid
    have hfV := find?_eq_of_mem_nodup hVnd hp hpid
    obtain ⟨d, hd, hdid⟩ := List.mem_map.mp (mem_vectorSearch hp).1
    have hfD := find?_eq_of_mem_nodup hdocs hd (show Doc.id d = p.1 from hdid)
    simp only [hfV, hfD, hfK] at hlook
    have h := Option.some.inj hlook
    subst h
    exact ⟨rfl, rfl, rfl⟩
  · intro sd hsd hsdid hno
    have hfK := find?_eq_of_mem_nodup hKnd hsd hsdid
    have hfV : (vectorSearch embeddings query (documents.map Doc.id)
        (maxResults * 2)).find? (fun x => x.1 = r.doc.id) = none := by
      rw [List.find?_eq_none]
      intro x hx
      simpa using hno x hx
    simp only [hfV, hfK] at hlook
    have h := Option.some.inj hlook
    subst h
    exact ⟨rfl, rfl, rfl⟩
  · intro hno p hp hpid
    have hfK : (keywordSearch documents query (maxResults * 2)).find?
        (fun sd => sd.doc.id = r.doc.id) = none := by
      rw [List.find?_eq_none]
      intro x hx
      simpa using hno x hx
    have hfV := find?_eq_of_mem_nodup hVnd hp hpid
    obtain ⟨d, hd, hdid⟩ := List.mem_map.mp (mem_vectorSearch hp).1
    have hfD := find?_eq_of_mem_nodup hdocs hd (show Doc.id d = p.1 from hdid)
    simp only [hfV, hfD, hfK, lookupA_nil] at hlook
    have h := Option.some.inj hlook
    subst h
    exact ⟨rfl, rfl, rfl⟩

/-- C4 witness: keyword-only fusion on a one-document corpus with an empty
embeddings table; the result keeps its raw keyword score 14 as combined
score. -/
theorem hybridRetrieval_combinedScore_witness :
    ((⟨⟨"A", "Alpha Systems", "alpha beta gamma alpha", ["alpha"]⟩, 14⟩ : ScoredDoc) ∈
      keywordSearch [⟨"A", "Alpha Systems", "alpha beta gamma alpha", ["alpha"]⟩]
        "alpha" (5 * 2))
    ∧ ((kwEntry ⟨⟨"A", "Alpha Systems", "alpha beta gamma alpha", ["alpha"]⟩, 14⟩).keywordScore
        = 14
      ∧ (kwEntry ⟨⟨"A", "Alpha Systems", "alpha beta gamma alpha", ["alpha"]⟩, 14⟩).vectorScore
        = 0
      ∧ (kwEntry ⟨⟨"A", "Alpha Systems", "alpha beta gamma alpha", ["alpha"]⟩, 14⟩).combinedScore
        = ((14 : ℕ) : ℝ)) := by
  have hmem : (⟨⟨"A", "Alpha Systems", "alpha beta gamma alpha", ["alpha"]⟩, 14⟩ : ScoredDoc) ∈
      keywordSearch [⟨"A", "Alpha Systems", "alpha beta gamma alpha", ["alpha"]⟩]
        "alpha" (5 * 2) := by decide
  have hr : kwEntry ⟨⟨"A", "Alpha Systems", "alpha beta gamma alpha", ["alpha"]⟩, 14⟩ ∈
      hybridRetrieval [⟨"A", "Alpha Systems", "alpha beta gamma alpha", ["alpha"]⟩]
        [] "alpha" 5 :=
    List.mem_singleton.mpr rfl
  have hno : ∀ p ∈ vectorSearch []
      "alpha" (List.map Doc.id [⟨"A", "Alpha Systems", "alpha beta gamma alpha", ["alpha"]⟩])
      (5 * 2),
      ¬ p.1 = (kwEntry ⟨⟨"A", "Alpha Systems", "alpha beta gamma alpha", ["alpha"]⟩,
        14⟩).doc.id := by
    intro p hp
    exact absurd hp (List.not_mem_nil p)
  exact ⟨hmem,
    (hybridRetrieval_combinedScore
      [⟨"A", "Alpha Systems", "alpha beta gamma alpha", ["alpha"]⟩] [] "alpha" 5
      (by decide) _ hr).2.1 _ hmem rfl hno⟩

/-! ### Helper lemmas: the empty query -/

theorem keywordScore_eq (query : String) (doc : Doc) :
    keywordScore query doc =
      (if containsSub (toLowerCase query) (toLowerCase doc.title) then 5 else 0)
      + (if containsSub (toLowerCase query) (toLowerCase doc.content) then 3 else 0)
      + 2 * (doc.tags.filter (fun tag =>
          containsSub (toLowerCase query) (toLowerCase tag))).length
      + ((splitWs (toLowerCase query)).map (fun word =>
          if 2 < word.length then
            2 * countOccur word (toLowerCase doc.title)
              + 1 * countOccur word (toLowerCase doc.content)
          else 0)).sum := rfl

theorem keywordScore_empty (doc : Doc) :
    keywordScore "" doc = 8 + 2 * doc.tags.length := by
  rw [keywordScore_eq]
  have h1 : toLowerCase "" = [] := rfl
  rw [h1]
  rw [if_pos (containsSub_nil _), if_pos (containsSub_nil _)]
  have h2 : doc.tags.filter (fun tag => containsSub [] (toLowerCase tag)) = doc.tags := by
    rw [List.filter_eq_self]
    intro a _
    exact containsSub_nil _
  rw [h2]
  have h3 : splitWs [] = [] := rfl
  rw [h3]
  simp only [List.map_nil, List.sum_nil]
  omega

theorem keywordSearch_empty_length (documents : List Doc) (maxResults : Nat) :
    (keywordSearch documents "" maxResults).length = min maxResults documents.length := by
  rw [keywordSearch_eq, List.length_take, (sortByDesc_perm _ _).length_eq]
  congr 1
  induction documents with
  | nil => rfl
  | cons d ds ih =>
    have hs : (fun doc =>
        if 0 < keywordScore "" doc then some (⟨doc, keywordScore "" doc⟩ : ScoredDoc)
        else none) d = some ⟨d, keywordScore "" d⟩ := by
      dsimp only
      rw [if_pos (show 0 < keywordScore "" d by rw [keywordScore_empty]; omega)]
    rw [List.filterMap_cons_some (f := fun doc =>
        if 0 < keywordScore "" doc then some (⟨doc, keywordScore "" doc⟩ : ScoredDoc)
        else none) hs, List.length_cons, ih, List.length_cons]

/-- C1 counterexample: with the empty query, the empty string is a substring
of every title and content, so a tag-free document scores 5 + 3 = 8 (not 0)
and `keywordSearch` returns it (not the empty result set). -/
theorem keywordSearch_empty_query_cex :
    keywordScore "" ⟨"d", "t", "c", []⟩ = 8 ∧
      keywordSearch [⟨"d", "t", "c", []⟩] "" 5 ≠ [] := by
  constructor
  · decide
  · decide

/-- C1 (amended): the empty query raises nothing, but instead of excluding
every document it scores each one 8 + 2·(number of tags) — the empty string
is a substring of title, content and every tag, while the word loop
contributes nothing — so `keywordSearch` returns min(maxResults, |corpus|)
documents, and `hybridRetrieval` on a non-empty corpus with maxResults > 0
returns a non-empty result list. -/
theorem keywordSearch_empty_query_amended (documents : List Doc) (maxResults : Nat) :
    (∀ doc ∈ documents, keywordScore "" doc = 8 + 2 * doc.tags.length)
    ∧ (keywordSearch documents "" maxResults).length = min maxResults documents.length
    ∧ (∀ embeddings : List (String × TermVec), documents ≠ [] → 0 < maxResults →
        hybridRetrieval documents embeddings "" maxResults ≠ []) := by
  refine ⟨fun doc _ => keywordScore_empty doc,
    keywordSearch_empty_length documents maxResults, ?_⟩
  intro embeddings hne hpos
  have hKne : keywordSearch documents "" (maxResults * 2) ≠ [] := by
    intro h
    have hlen := keywordSearch_empty_length documents (maxResults * 2)
    rw [h] at hlen
    rcases Nat.min_eq_zero_iff.mp hlen.symm with h1 | h1
    · omega
    · exact hne (List.length_eq_zero.mp h1)
  have hm := fusedMap_ne_nil documents embeddings "" maxResults hKne
  rw [hybridRetrieval]
  intro h
  have hlen := congrArg List.length h
  rw [List.length_take, (sortByDesc_perm _ _).length_eq, List.length_map,
    List.length_nil] at hlen
  rcases Nat.min_eq_zero_iff.mp hlen with h1 | h1
  · omega
  · exact hm (List.length_eq_zero.mp h1)

/-- C1 witness: the amended claim applied to a concrete one-document corpus
with the empty query. -/
theorem keywordSearch_empty_query_amended_witness :
    ((⟨"d", "t", "c", []⟩ : Doc) ∈ [(⟨"d", "t", "c", []⟩ : Doc)]
      ∧ [(⟨"d", "t", "c", []⟩ : Doc)] ≠ ([] : List Doc) ∧ 0 < 1)
    ∧ keywordScore "" ⟨"d", "t", "c", []⟩ = 8 + 2 * ([] : List String).length
    ∧ hybridRetrieval [⟨"d", "t", "c", []⟩] [] "" 1 ≠ [] := by
  refine ⟨⟨List.mem_singleton.mpr rfl, by decide, by decide⟩, ?_, ?_⟩
  · exact (keywordSearch_empty_query_amended [⟨"d", "t", "c", []⟩] 1).1 _
      (List.mem_singleton.mpr rfl)
  · exact (keywordSearch_empty_query_amended [⟨"d", "t", "c", []⟩] 1).2.2 []
      (by decide) (by decide)

/-- C2 (worked corpus): with query "alpha" the literal-word model gives
Doc A score 5 (title) + 3 (content) + 2 (tag) + 2 (title word match) + 2
(two content word matches) = 14, Doc B score 0, and `keywordSearch` returns
exactly Doc A.  (The general per-word clause of the claim fails on the code:
the word is compiled as a regular expression, not matched literally — see the
recorded analysis.) -/
theorem keywordSearch_worked_corpus :
    keywordScore "alpha" ⟨"A", "Alpha Systems", "alpha beta gamma alpha", ["alpha"]⟩ = 14
    ∧ keywordScore "alpha" ⟨"B", "Beta Overview", "beta gamma delta", ["beta"]⟩ = 0
    ∧ keywordSearch
        [⟨"A", "Alpha Systems", "alpha beta gamma alpha", ["alpha"]⟩,
         ⟨"B", "Beta Overview", "beta gamma delta", ["beta"]⟩] "alpha" 5
      = [⟨⟨"A", "Alpha Systems", "alpha beta gamma alpha", ["alpha"]⟩, 14⟩] := by
  refine ⟨by decide, by decide, by decide⟩
